import Mathlib

/-!
# MeshSubdivider (osgEarth) — a shallow embedding with proofs

This file embeds the core of `src/osgEarthSymbology/MeshSubdivider.cpp`:
the geodetic-midpoint arithmetic, the vertex-collection/deduplication
scheme, the queue-driven triangle and line subdivision loops (with the
shared-edge midpoint cache), the index-width selection and the
bounded-size index-buffer packer, and the top-level dispatch of
`MeshSubdivider::run`.

Modelling conventions:
* `GLuint` indices and `unsigned int` counters become `Nat` (the claims
  checked here never exercise 32-bit wrap-around; the default element cap
  is `INT_MAX` and all counts stay far below `2^32`).
* The numeric kernel (`angleBetween`, `geocentricMidpoint`, the
  local/world matrix products), which is floating-point trigonometry in
  the source, enters the subdivision loops as parameters of a `Params`
  record: the loops in the source consume those values only through
  comparisons with the granularity and through opaque midpoint vertices,
  so every structural claim about the loops is stated relative to those
  parameters.  `geodeticMidpoint` itself is embedded over `ℚ`, with the
  constant π as an explicit parameter (the source uses the double
  constant `osg::PI`).
* `std::map` (the vertex map and the edge cache) becomes an association
  list searched from the front; insertion appends, and the loops insert a
  key only after a failed lookup, exactly as the source does.
* The fallible/possibly-diverging subdivision loops become fuel-indexed
  functions returning `Option`; `none` means the fuel ran out.
-/

namespace MeshSub

set_option linter.unusedSectionVars false

/-- A triangle: three `GLuint` indices into the shared vertex buffer
(struct `Triangle` of the source). -/
structure Triangle where
  i0 : Nat
  i1 : Nat
  i2 : Nat
deriving DecidableEq

/-- A line segment: two `GLuint` indices into the shared vertex buffer
(struct `Line` of the source). -/
structure Line where
  i0 : Nat
  i1 : Nat
deriving DecidableEq

/-- The three index widths an output buffer can use
(`osg::DrawElementsUByte` / `UShort` / `UInt`). -/
inductive IdxWidth where
  | u8
  | u16
  | u32
deriving DecidableEq

/-- Bit width of an index element. -/
def IdxWidth.bits : IdxWidth → Nat
  | .u8 => 8
  | .u16 => 16
  | .u32 => 32

/-- `static_cast<VTYPE>(i)`: an index truncated to the element width. -/
def castIdx (w : IdxWidth) (i : Nat) : Nat := i % 2 ^ w.bits

/-!
## The emitter (`populateTriangles` / `populateLines`)

The source templates walk the done list keeping a current element buffer
`ebo` (null before the first iteration) and a counter
`numElementsInCurrentEBO` initialised to `maxElementsPerEBO`; at the top
of each iteration, if `count + 2 >= max` the current buffer (when
non-null) is flushed and a fresh one started with `count = 0`; then the
primitive's indices are appended and the counter advanced.  The counter
advances by 3 per primitive in both templates — for lines this
overcounts, since a line appends only 2 indices (claim C10).
-/

/-- Loop body of `populateTriangles`, recursing over the remaining
triangles with the emitted buffers accumulated in the result.  `ebo` is
the current buffer (`none` = the null pointer before the first
iteration) and `count` is `numElementsInCurrentEBO`. -/
def populateTrianglesGo (w : IdxWidth) (M : Nat) :
    Option (List Nat) → Nat → List Triangle → List (List Nat)
  | ebo, _, [] =>
      match ebo with
      | some b => if b.length > 0 then [b] else []
      | none => []
  | ebo, count, t :: rest =>
      if count + 2 ≥ M then
        (match ebo with
          | some b => [b]
          | none => []) ++
        populateTrianglesGo w M
          (some [castIdx w t.i0, castIdx w t.i1, castIdx w t.i2]) 3 rest
      else
        match ebo with
        | some b =>
            populateTrianglesGo w M
              (some (b ++ [castIdx w t.i0, castIdx w t.i1, castIdx w t.i2]))
              (count + 3) rest
        | none =>
            -- unreachable from the initial state (`count` starts at `M`,
            -- so the first iteration always takes the flush branch)
            populateTrianglesGo w M
              (some [castIdx w t.i0, castIdx w t.i1, castIdx w t.i2])
              (count + 3) rest

/-- `populateTriangles<ETYPE,VTYPE>(geom, tris, maxElementsPerEBO)`:
the list of GL_TRIANGLES index buffers added to the geometry, in order. -/
def populateTriangles (w : IdxWidth) (M : Nat) (tris : List Triangle) :
    List (List Nat) :=
  populateTrianglesGo w M none M tris

/-- Loop body of `populateLines`; note the counter advances by 3 while
only 2 indices are appended, exactly as in the source (line 290). -/
def populateLinesGo (w : IdxWidth) (M : Nat) :
    Option (List Nat) → Nat → List Line → List (List Nat)
  | ebo, _, [] =>
      match ebo with
      | some b => if b.length > 0 then [b] else []
      | none => []
  | ebo, count, l :: rest =>
      if count + 2 ≥ M then
        (match ebo with
          | some b => [b]
          | none => []) ++
        populateLinesGo w M (some [castIdx w l.i0, castIdx w l.i1]) 3 rest
      else
        match ebo with
        | some b =>
            populateLinesGo w M
              (some (b ++ [castIdx w l.i0, castIdx w l.i1])) (count + 3) rest
        | none =>
            -- unreachable from the initial state, as for triangles
            populateLinesGo w M (some [castIdx w l.i0, castIdx w l.i1])
              (count + 3) rest

/-- `populateLines<ETYPE,VTYPE>(geom, lines, maxElementsPerEBO)`:
the list of GL_LINES index buffers added to the geometry, in order. -/
def populateLines (w : IdxWidth) (M : Nat) (lines : List Line) :
    List (List Nat) :=
  populateLinesGo w M none M lines

/-- Index-width selection in `subdivideTriangles` (lines 492–497):
8-bit below 256 vertices, 16-bit below 65536, else 32-bit. -/
def triEBOWidth (n : Nat) : IdxWidth :=
  if n < 256 then .u8 else if n < 65536 then .u16 else .u32

/-- Index-width selection in `subdivideLines` (lines 358–363), textually
duplicated from the triangle path in the source. -/
def lineEBOWidth (n : Nat) : IdxWidth :=
  if n < 256 then .u8 else if n < 65536 then .u16 else .u32

/-!
## `geodeticMidpoint`

A geodetic coordinate is a pair (longitude, colatitude).  The source
works in `double` with the constant `osg::PI`; we embed over `ℚ` and
take π as an explicit parameter `pi` (the branch structure does not
depend on its value).
-/

/-- `geodeticMidpoint(g0, g1)` (lines 47–56): componentwise average,
with the longitude shifted by a full turn when the two longitudes are at
least π apart, so the average crosses the antimeridian rather than the
prime meridian. -/
def geodeticMidpoint (pi : ℚ) (g0 g1 : ℚ × ℚ) : ℚ × ℚ :=
  if |g0.1 - g1.1| < pi then
    (0.5 * (g0.1 + g1.1), 0.5 * (g0.2 + g1.2))
  else if g1.1 > g0.1 then
    (0.5 * ((g0.1 + 2 * pi) + g1.1), 0.5 * (g0.2 + g1.2))
  else
    (0.5 * (g0.1 + (g1.1 + 2 * pi)), 0.5 * (g0.2 + g1.2))

/-!
## Subdivision parameters

The subdivision loops read geometry only through:
* the local→world transform applied to a stored vertex (`v * L2W`),
* `angleBetween` on two world-space vectors, compared against the
  granularity,
* `geocentricMidpoint(v0_w, v1_w) * W2L`, the new local-space midpoint
  vertex appended to the buffer.

These are bundled here as parameters: `V` is the vertex-position type
(`osg::Vec3` in the source, with exact-value identity) and `A` the
linearly ordered angle domain (`double` in the source). -/
structure Params (V A : Type) where
  l2w : V → V
  angleBetween : V → V → A
  midW2L : V → V → V
  granularity : A

variable {V A : Type} [DecidableEq V] [Inhabited V] [LinearOrder A]

/-- `(*verts)[i]`: vertex lookup (every index the loops produce is in
range; out-of-range lookups return the default, mirroring nothing). -/
def vget (verts : List V) (i : Nat) : V := verts.getD i default

/-!
## The collectors (`TriangleData` / `LineData`)

`osg::TriangleFunctor` / `LineFunctor` (external OSG code) decompose the
geometry's primitive sets into a soup of vertex-position triples/pairs
and feed them to `operator()`; the in-repository part is `record`, which
deduplicates positions through `_vertMap` and appends fresh ones to
`_verts`.  We embed the collector as a fold of `operator()` over the
soup. -/
structure TriangleData (V : Type) where
  vertMap : List (V × Nat)
  verts : List V
  tris : List Triangle
deriving DecidableEq

/-- `std::map::find` on an association list. -/
def mapFind {κ : Type} [DecidableEq κ] : List (κ × Nat) → κ → Option Nat
  | [], _ => none
  | (k, i) :: rest, k' => if k = k' then some i else mapFind rest k'

/-- `TriangleData::record(v)`: look the position up in the vertex map;
when absent, append it to the vertex buffer and map it to its new
index. -/
def TriangleData.record (d : TriangleData V) (v : V) :
    TriangleData V × Nat :=
  match mapFind d.vertMap v with
  | some i => (d, i)
  | none =>
      let index := d.verts.length
      ({ d with verts := d.verts ++ [v], vertMap := d.vertMap ++ [(v, index)] },
        index)

/-- `TriangleData::operator()(v0, v1, v2, temp)`: record the three
corners and enqueue the triangle of their indices. -/
def TriangleData.push (d : TriangleData V) (p : V × V × V) :
    TriangleData V :=
  let (d0, a) := d.record p.1
  let (d1, b) := d0.record p.2.1
  let (d2, c) := d1.record p.2.2
  { d2 with tris := d2.tris ++ [⟨a, b, c⟩] }

/-- `geom.accept(TriangleFunctor<TriangleData>)`: fold the collection
callback over the triangle soup the (external) functor produces. -/
def collectTris (soup : List (V × V × V)) : TriangleData V :=
  soup.foldl TriangleData.push ⟨[], [], []⟩

/-- Collection state for lines (`LineData`); `record` and `operator()`
are verbatim duplicates of the triangle versions in the source. -/
structure LineData (V : Type) where
  vertMap : List (V × Nat)
  verts : List V
  lines : List Line
deriving DecidableEq

/-- `LineData::record(v)`, identical to `TriangleData::record`. -/
def LineData.record (d : LineData V) (v : V) : LineData V × Nat :=
  match mapFind d.vertMap v with
  | some i => (d, i)
  | none =>
      let index := d.verts.length
      ({ d with verts := d.verts ++ [v], vertMap := d.vertMap ++ [(v, index)] },
        index)

/-- `LineData::operator()(v0, v1, temp)`. -/
def LineData.push (d : LineData V) (p : V × V) : LineData V :=
  let (d0, a) := d.record p.1
  let (d1, b) := d0.record p.2
  { d1 with lines := d1.lines ++ [⟨a, b⟩] }

/-- `geom.accept(LineFunctor<LineData>)`. -/
def collectLines (soup : List (V × V)) : LineData V :=
  soup.foldl LineData.push ⟨[], [], []⟩

/-!
## The subdivision loops

The loop state carries the growing vertex buffer, the pending FIFO queue
(front = head, push = append), the done list and — for triangles — the
edge cache `EdgeMap edges` keyed by canonical (min, max) index pairs.
-/

/-- State of the `subdivideTriangles` loop (lines 399–481). -/
structure TriState (V : Type) where
  verts : List V
  tris : List Triangle
  done : List Triangle
  edges : List ((Nat × Nat) × Nat)
deriving DecidableEq

/-- State of the `subdivideLines` loop (lines 325–348). -/
structure LineState (V : Type) where
  verts : List V
  lines : List Line
  done : List Line
deriving DecidableEq

/-- The three world-space edge angles `g0, g1, g2` of a triangle
(lines 404–410). -/
def triAngles (P : Params V A) (verts : List V) (t : Triangle) :
    A × A × A :=
  let v0w := P.l2w (vget verts t.i0)
  let v1w := P.l2w (vget verts t.i1)
  let v2w := P.l2w (vget verts t.i2)
  (P.angleBetween v0w v1w, P.angleBetween v1w v2w, P.angleBetween v2w v0w)

/-- `max = osg::maximum(g0, osg::maximum(g1, g2))` (line 411). -/
def triMaxAngle (P : Params V A) (verts : List V) (t : Triangle) : A :=
  let g := triAngles P verts t
  max g.1 (max g.2.1 g.2.2)

/-- The world-space angle of a line segment (line 333). -/
def lineAngle (P : Params V A) (verts : List V) (l : Line) : A :=
  P.angleBetween (P.l2w (vget verts l.i0)) (P.l2w (vget verts l.i1))

/-- One edge-split of the triangle loop: canonicalize the edge key, look
it up in the cache, create-and-cache the midpoint vertex on a miss or
reuse the cached index on a hit, and enqueue the two children built by
`mk1`/`mk2` from the midpoint index (the three `if (gK == max)` blocks,
lines 415–474, instantiated per edge). -/
def splitStep (st : TriState V) (a b : Nat) (mid : V)
    (mk1 mk2 : Nat → Triangle) : TriState V :=
  let edge := (min a b, max a b)
  match mapFind st.edges edge with
  | some i =>
      { st with tris := st.tris ++ [mk1 i, mk2 i] }
  | none =>
      let i := st.verts.length
      { st with
          verts := st.verts ++ [mid],
          tris := st.tris ++ [mk1 i, mk2 i],
          edges := st.edges ++ [(edge, i)] }

/-- One iteration of the `subdivideTriangles` while-loop: dequeue, test
the maximum edge angle against the granularity, and either finalize or
split the first edge attaining the maximum (ties broken `g0`, `g1`,
`g2`, by exact equality as in the source). -/
def stepTri (P : Params V A) (st : TriState V) : TriState V :=
  match st.tris with
  | [] => st
  | t :: rest =>
      let v0w := P.l2w (vget st.verts t.i0)
      let v1w := P.l2w (vget st.verts t.i1)
      let v2w := P.l2w (vget st.verts t.i2)
      let g0 := P.angleBetween v0w v1w
      let g1 := P.angleBetween v1w v2w
      let g2 := P.angleBetween v2w v0w
      let mx := max g0 (max g1 g2)
      let st' : TriState V := { st with tris := rest }
      if mx > P.granularity then
        if g0 = mx then
          splitStep st' t.i0 t.i1 (P.midW2L v0w v1w)
            (fun i => ⟨t.i0, i, t.i2⟩) (fun i => ⟨i, t.i1, t.i2⟩)
        else if g1 = mx then
          splitStep st' t.i1 t.i2 (P.midW2L v1w v2w)
            (fun i => ⟨t.i1, i, t.i0⟩) (fun i => ⟨i, t.i2, t.i0⟩)
        else if g2 = mx then
          splitStep st' t.i2 t.i0 (P.midW2L v2w v0w)
            (fun i => ⟨t.i2, i, t.i1⟩) (fun i => ⟨i, t.i0, t.i1⟩)
        else
          -- unreachable: the maximum of three values equals one of them
          st'
      else
        { st' with done := st.done ++ [t] }

/-- The `subdivideTriangles` while-loop, fuel-indexed; `none` = the fuel
ran out before the queue emptied. -/
def runTri (P : Params V A) : Nat → TriState V → Option (TriState V)
  | fuel, st =>
      if st.tris = [] then some st
      else
        match fuel with
        | 0 => none
        | fuel' + 1 => runTri P fuel' (stepTri P st)

/-- One iteration of the `subdivideLines` while-loop (lines 325–348):
dequeue, test the segment's angle; split at the geocentric midpoint
(no edge cache — a fresh vertex is appended on every split) or
finalize. -/
def stepLine (P : Params V A) (st : LineState V) : LineState V :=
  match st.lines with
  | [] => st
  | l :: rest =>
      let v0w := P.l2w (vget st.verts l.i0)
      let v1w := P.l2w (vget st.verts l.i1)
      let g0 := P.angleBetween v0w v1w
      if g0 > P.granularity then
        let i := st.verts.length
        { st with
            verts := st.verts ++ [P.midW2L v0w v1w],
            lines := rest ++ [⟨l.i0, i⟩, ⟨i, l.i1⟩] }
      else
        { st with lines := rest, done := st.done ++ [l] }

/-- The `subdivideLines` while-loop, fuel-indexed. -/
def runLine (P : Params V A) : Nat → LineState V → Option (LineState V)
  | fuel, st =>
      if st.lines = [] then some st
      else
        match fuel with
        | 0 => none
        | fuel' + 1 => runLine P fuel' (stepLine P st)

/-- Initial triangle-loop state from the collector's output: the seeded
queue, an empty done list and an empty edge cache. -/
def initTri (d : TriangleData V) : TriState V :=
  ⟨d.verts, d.tris, [], []⟩

/-- Initial line-loop state from the collector's output. -/
def initLine (d : LineData V) : LineState V :=
  ⟨d.verts, d.lines, []⟩

/-!
## The geometry object and the orchestrator

A `Geometry` models the parts of `osg::Geometry` the subdivider touches:
the vertex array and the primitive sets (each a GL mode plus an index
buffer at some element width).  The decomposition of the existing
primitive sets into a triangle/line soup is done by the external
`osg::TriangleFunctor` / `LineFunctor`; the soups therefore enter
`subdivide` as arguments standing for `geom.accept(...)`'s output. -/
inductive Mode where
  | points
  | lines
  | lineStrip
  | lineLoop
  | triangles
deriving DecidableEq

/-- One primitive set: GL mode, element width, flat index buffer. -/
structure PrimSet where
  mode : Mode
  width : IdxWidth
  indices : List Nat
deriving DecidableEq

/-- The mesh data `run` reads and replaces. -/
structure Geometry (V : Type) where
  verts : List V
  primSets : List PrimSet
deriving DecidableEq

/-- The GL_TRIANGLES primitive sets emitted for a finished triangle run:
width from the final vertex count, buffers from `populateTriangles`
(lines 483–498). -/
def triPrimSets (n M : Nat) (done : List Triangle) : List PrimSet :=
  (populateTriangles (triEBOWidth n) M done).map
    (fun b => ⟨Mode.triangles, triEBOWidth n, b⟩)

/-- The GL_LINES primitive sets emitted for a finished line run
(lines 350–364). -/
def linePrimSets (n M : Nat) (done : List Line) : List PrimSet :=
  (populateLines (lineEBOWidth n) M done).map
    (fun b => ⟨Mode.lines, lineEBOWidth n, b⟩)

/-- `subdivideTriangles` end to end: collect, run the loop, and — only
when the done list is non-empty — drop all old primitive sets and
install the new vertex array and element buffers; otherwise the
geometry is returned untouched. -/
def subdivideTriangles (P : Params V A) (geom : Geometry V)
    (triSoup : List (V × V × V)) (M fuel : Nat) : Option (Geometry V) :=
  match runTri P fuel (initTri (collectTris triSoup)) with
  | none => none
  | some st =>
      if st.done.length > 0 then
        some ⟨st.verts, triPrimSets st.verts.length M st.done⟩
      else
        some geom

/-- `subdivideLines` end to end. -/
def subdivideLines (P : Params V A) (geom : Geometry V)
    (lineSoup : List (V × V)) (M fuel : Nat) : Option (Geometry V) :=
  match runLine P fuel (initLine (collectLines lineSoup)) with
  | none => none
  | some st =>
      if st.done.length > 0 then
        some ⟨st.verts, linePrimSets st.verts.length M st.done⟩
      else
        some geom

/-- `subdivide` (lines 501–527): dispatch on the first primitive set's
mode — points are left untouched, line modes go to the line path,
everything else to the triangle path. -/
def subdivide (P : Params V A) (geom : Geometry V)
    (lineSoup : List (V × V)) (triSoup : List (V × V × V))
    (M fuel : Nat) : Option (Geometry V) :=
  match geom.primSets.head? with
  | none => some geom
  | some ps =>
      match ps.mode with
      | .points => some geom
      | .lines => subdivideLines P geom lineSoup M fuel
      | .lineStrip => subdivideLines P geom lineSoup M fuel
      | .lineLoop => subdivideLines P geom lineSoup M fuel
      | .triangles => subdivideTriangles P geom triSoup M fuel

/-- `MeshSubdivider::run(granularity, geom)` (lines 544–551): a no-op on
a geometry with no primitive sets, otherwise `subdivide`. -/
def run (P : Params V A) (geom : Geometry V)
    (lineSoup : List (V × V)) (triSoup : List (V × V × V))
    (M fuel : Nat) : Option (Geometry V) :=
  if geom.primSets.length < 1 then some geom
  else subdivide P geom lineSoup triSoup M fuel

/-!
## Derived views used by the statements
-/

/-- All three indices point into a vertex buffer of length `n`. -/
def triValid (n : Nat) (t : Triangle) : Prop :=
  t.i0 < n ∧ t.i1 < n ∧ t.i2 < n

/-- Both indices point into a vertex buffer of length `n`. -/
def lineValid (n : Nat) (l : Line) : Prop :=
  l.i0 < n ∧ l.i1 < n

/-- The positions a triangle's indices denote. -/
def triPos (verts : List V) (t : Triangle) : V × V × V :=
  (vget verts t.i0, vget verts t.i1, vget verts t.i2)

/-- The positions a segment's indices denote. -/
def linePos (verts : List V) (l : Line) : V × V :=
  (vget verts l.i0, vget verts l.i1)

/-- The maximum edge angle of a position triple (what `triMaxAngle`
computes after looking the indices up). -/
def posMaxAngle (P : Params V A) (p : V × V × V) : A :=
  max (P.angleBetween (P.l2w p.1) (P.l2w p.2.1))
    (max (P.angleBetween (P.l2w p.2.1) (P.l2w p.2.2))
      (P.angleBetween (P.l2w p.2.2) (P.l2w p.1)))

/-- The angle of a position pair. -/
def posLineAngle (P : Params V A) (p : V × V) : A :=
  P.angleBetween (P.l2w p.1) (P.l2w p.2)

/-- The index `i` is one of the triangle's three corners. -/
def triHas (t : Triangle) (i : Nat) : Prop :=
  t.i0 = i ∨ t.i1 = i ∨ t.i2 = i

/-- The canonical key of the edge a dequeued triangle would split:
`none` when the triangle passes the granularity test, otherwise the
(min, max) pair of the first edge attaining the maximum angle, with the
source's `g0`, `g1`, `g2` tie-break order. -/
def chosenEdge (P : Params V A) (verts : List V) (t : Triangle) :
    Option (Nat × Nat) :=
  let v0w := P.l2w (vget verts t.i0)
  let v1w := P.l2w (vget verts t.i1)
  let v2w := P.l2w (vget verts t.i2)
  let g0 := P.angleBetween v0w v1w
  let g1 := P.angleBetween v1w v2w
  let g2 := P.angleBetween v2w v0w
  let mx := max g0 (max g1 g2)
  if mx > P.granularity then
    if g0 = mx then some (min t.i0 t.i1, max t.i0 t.i1)
    else if g1 = mx then some (min t.i1 t.i2, max t.i1 t.i2)
    else if g2 = mx then some (min t.i2 t.i0, max t.i2 t.i0)
    else none
  else none

/-- Invariant of the triangle loop: every queued or finalized triangle
indexes into the vertex buffer, every finalized triangle passes the
granularity test, and every cached midpoint index is in range. -/
def TriInv (P : Params V A) (st : TriState V) : Prop :=
  (∀ t ∈ st.tris, triValid st.verts.length t) ∧
  (∀ t ∈ st.done, triValid st.verts.length t) ∧
  (∀ t ∈ st.done, triMaxAngle P st.verts t ≤ P.granularity) ∧
  (∀ e ∈ st.edges, e.2 < st.verts.length)

/-- Invariant of the line loop. -/
def LineInv (P : Params V A) (st : LineState V) : Prop :=
  (∀ l ∈ st.lines, lineValid st.verts.length l) ∧
  (∀ l ∈ st.done, lineValid st.verts.length l) ∧
  (∀ l ∈ st.done, lineAngle P st.verts l ≤ P.granularity)

/-- Invariant of the triangle collector: the vertex map sends a position
to an in-range index holding that position, and every queued triangle is
in range. -/
def CollTriInv (d : TriangleData V) : Prop :=
  (∀ p ∈ d.vertMap, p.2 < d.verts.length ∧ vget d.verts p.2 = p.1) ∧
  (∀ t ∈ d.tris, triValid d.verts.length t)

/-- Invariant of the line collector. -/
def CollLineInv (d : LineData V) : Prop :=
  (∀ p ∈ d.vertMap, p.2 < d.verts.length ∧ vget d.verts p.2 = p.1) ∧
  (∀ l ∈ d.lines, lineValid d.verts.length l)

/-!
## Float-comparison refinement of the line loop (for the NaN claim)

The engine above abstracts the angle domain as a linear order, which
cannot represent an IEEE NaN.  To settle the NaN claim we re-embed the
line loop body (lines 325–348) with the comparison semantics of C++
`double`: an angle is `Option A` with `none` standing for NaN, and
`x > granularity` is false whenever `x` is NaN, exactly as IEEE-754
comparisons behave. -/
structure ParamsF (V A : Type) where
  l2w : V → V
  angleBetween : V → V → Option A
  midW2L : V → V → V
  granularity : A

/-- IEEE-style `x > g`: false when `x` is NaN (`none`). -/
def fgt [LinearOrder A] (x : Option A) (g : A) : Bool :=
  match x with
  | some v => decide (g < v)
  | none => false

/-- One iteration of the `subdivideLines` while-loop under IEEE
comparison semantics: the split test `g0 > granularity` is the `if`
condition, and the done-list push is its `else` branch, exactly as in
the source. -/
def stepLineF (P : ParamsF V A) (st : LineState V) : LineState V :=
  match st.lines with
  | [] => st
  | l :: rest =>
      let v0w := P.l2w (vget st.verts l.i0)
      let v1w := P.l2w (vget st.verts l.i1)
      let g0 := P.angleBetween v0w v1w
      if fgt g0 P.granularity then
        let i := st.verts.length
        { st with
            verts := st.verts ++ [P.midW2L v0w v1w],
            lines := rest ++ [⟨l.i0, i⟩, ⟨i, l.i1⟩] }
      else
        { st with lines := rest, done := st.done ++ [l] }

/-- The line loop under IEEE comparison semantics, fuel-indexed. -/
def runLineF (P : ParamsF V A) : Nat → LineState V → Option (LineState V)
  | fuel, st =>
      if st.lines = [] then some st
      else
        match fuel with
        | 0 => none
        | fuel' + 1 => runLineF P fuel' (stepLineF P st)

/-- A concrete IEEE-flavoured instance: the angle of two coincident
positions is NaN (`none`), mirroring the zero-length-vector NaN of
`angleBetween`; otherwise the integer distance. -/
def demoParamsF : ParamsF Int Nat :=
  { l2w := id
    angleBetween := fun a b => if a = b then none else some ((a - b).natAbs)
    midW2L := fun a b => (a + b) / 2
    granularity := 1 }

/-- A concrete parameter instance used by the witnesses: positions are
integers on a line, the "angle" between two positions is their integer
distance, the midpoint is the integer average, both transforms are the
identity. -/
def demoParams (g : Nat) : Params Int Nat :=
  { l2w := id
    angleBetween := fun a b => (a - b).natAbs
    midW2L := fun a b => (a + b) / 2
    granularity := g }

/-!
## Emitter lemmas

The packing invariant: in the triangle template the counter equals the
current buffer's length, stays a positive multiple of 3 and never
exceeds `M` (for `M ≥ 3`); in the line template the counter overcounts —
the buffer holds `2 * (count / 3)` indices. -/

theorem populateTrianglesGo_bound (w : IdxWidth) (M : Nat) (hM : 3 ≤ M) :
    ∀ (tris : List Triangle) (ebo : Option (List Nat)) (count : Nat),
      (ebo = none → count = M) →
      (∀ b, ebo = some b →
        b.length = count ∧ count % 3 = 0 ∧ 3 ≤ count ∧ count ≤ M) →
      ∀ b ∈ populateTrianglesGo w M ebo count tris,
        b.length ≤ M ∧ b.length % 3 = 0 ∧ 0 < b.length := by
  intro tris
  induction tris with
  | nil =>
      intro ebo count hnone hsome b hb
      match ebo with
      | none => simp [populateTrianglesGo] at hb
      | some b0 =>
          obtain ⟨hlen, hmod, hge, hle⟩ := hsome b0 rfl
          simp only [populateTrianglesGo] at hb
          split at hb <;> simp_all
  | cons t rest ih =>
      intro ebo count hnone hsome b hb
      simp only [populateTrianglesGo] at hb
      split at hb
      · rename_i hfull
        rw [List.mem_append] at hb
        rcases hb with hb | hb
        · match ebo with
          | none => simp at hb
          | some b0 =>
              obtain ⟨hlen, hmod, hge, hle⟩ := hsome b0 rfl
              simp at hb
              subst hb
              omega
        · exact ih _ 3 (by simp) (by simp; omega) b hb
      · rename_i hfree
        match ebo with
        | some b0 =>
            obtain ⟨hlen, hmod, hge, hle⟩ := hsome b0 rfl
            refine ih _ (count + 3) (by simp) ?_ b hb
            intro b1 hb1
            simp at hb1
            subst hb1
            simp
            omega
        | none =>
            have := hnone rfl
            omega

theorem populateLinesGo_bound (w : IdxWidth) (M : Nat) (hM : 3 ≤ M) :
    ∀ (lines : List Line) (ebo : Option (List Nat)) (count : Nat),
      (ebo = none → count = M) →
      (∀ b, ebo = some b →
        b.length = 2 * (count / 3) ∧ count % 3 = 0 ∧ 3 ≤ count ∧ count ≤ M) →
      ∀ b ∈ populateLinesGo w M ebo count lines,
        b.length % 2 = 0 ∧ b.length / 2 ≤ M / 3 ∧ b.length ≤ M ∧ 0 < b.length := by
  intro lines
  induction lines with
  | nil =>
      intro ebo count hnone hsome b hb
      match ebo with
      | none => simp [populateLinesGo] at hb
      | some b0 =>
          obtain ⟨hlen, hmod, hge, hle⟩ := hsome b0 rfl
          simp only [populateLinesGo] at hb
          split at hb
          · simp_all
            omega
          · simp_all
  | cons l rest ih =>
      intro ebo count hnone hsome b hb
      simp only [populateLinesGo] at hb
      split at hb
      · rename_i hfull
        rw [List.mem_append] at hb
        rcases hb with hb | hb
        · match ebo with
          | none => simp at hb
          | some b0 =>
              obtain ⟨hlen, hmod, hge, hle⟩ := hsome b0 rfl
              simp at hb
              subst hb
              omega
        · exact ih _ 3 (by simp) (by simp; omega) b hb
      · rename_i hfree
        match ebo with
        | some b0 =>
            obtain ⟨hlen, hmod, hge, hle⟩ := hsome b0 rfl
            refine ih _ (count + 3) (by simp) ?_ b hb
            intro b1 hb1
            simp at hb1
            subst hb1
            simp
            omega
        | none =>
            have := hnone rfl
            omega

/-- C6: each output element buffer respects `maxElementsPerEBO`, in
triangle and line mode alike, for caps `M ≥ 3` (the claim's "every
positive M" fails below 3: the templates always place at least one whole
primitive in a fresh buffer, see `C6_counterexample`). -/
theorem C6_buffer_capacity (w : IdxWidth) (M : Nat) (hM : 3 ≤ M)
    (tris : List Triangle) (lines : List Line) :
    (∀ b ∈ populateTriangles w M tris, b.length ≤ M) ∧
    (∀ b ∈ populateLines w M lines, b.length ≤ M) := by
  constructor
  · intro b hb
    exact (populateTrianglesGo_bound w M hM tris none M (fun _ => rfl)
      (by simp) b hb).1
  · intro b hb
    exact (populateLinesGo_bound w M hM lines none M (fun _ => rfl)
      (by simp) b hb).2.2.1

/-- C6, witness: the capacity bound at `M = 3` on concrete input. -/
theorem C6_buffer_capacity_witness :
    (3 ≤ 3 ∧ ∀ b ∈ populateTriangles .u8 3 [⟨0, 1, 2⟩, ⟨1, 2, 3⟩], b.length ≤ 3) ∧
    (∀ b ∈ populateLines .u8 3 [⟨0, 1⟩, ⟨2, 3⟩], b.length ≤ 3) :=
  ⟨⟨by decide,
    (C6_buffer_capacity .u8 3 (by decide) [⟨0, 1, 2⟩, ⟨1, 2, 3⟩] [⟨0, 1⟩, ⟨2, 3⟩]).1⟩,
    (C6_buffer_capacity .u8 3 (by decide) [⟨0, 1, 2⟩, ⟨1, 2, 3⟩] [⟨0, 1⟩, ⟨2, 3⟩]).2⟩

/-- C6, counterexample to the claim as stated (every *positive* `M`):
with `M = 1` the triangle emitter still writes a 3-index buffer. -/
theorem C6_counterexample :
    ¬ (∀ b ∈ populateTriangles .u8 1 [⟨0, 1, 2⟩], b.length ≤ 1) := by
  decide

/-- C10: in line mode the per-buffer counter advances by 3 per segment
while only 2 indices are appended, so for `M ≥ 3` a GL_LINES buffer
holds at most `⌊M/3⌋` segments; the claim's further "strictly fewer than
`⌊M/2⌋`" holds only from `M ≥ 4` (see `C10_counterexample` for
`M = 3`). -/
theorem C10_line_overcount (w : IdxWidth) (M : Nat) (hM : 3 ≤ M)
    (lines : List Line) :
    (∀ b ∈ populateLines w M lines,
      b.length % 2 = 0 ∧ b.length / 2 ≤ M / 3 ∧ b.length ≤ 2 * (M / 3)) ∧
    (4 ≤ M → M / 3 < M / 2) := by
  constructor
  · intro b hb
    have h := populateLinesGo_bound w M hM lines none M (fun _ => rfl)
      (by simp) b hb
    refine ⟨h.1, h.2.1, ?_⟩
    omega
  · intro h4
    omega

/-- C10, witness: the segment bound at `M = 6` on concrete input
(`⌊6/3⌋ = 2` segments, 4 indices per buffer, strictly below
`⌊6/2⌋ = 3`). -/
theorem C10_line_overcount_witness :
    (3 ≤ 6 ∧
      ∀ b ∈ populateLines .u8 6 [⟨0, 1⟩, ⟨1, 2⟩, ⟨2, 3⟩],
        b.length % 2 = 0 ∧ b.length / 2 ≤ 6 / 3 ∧ b.length ≤ 2 * (6 / 3)) ∧
    (4 ≤ 6 → 6 / 3 < 6 / 2) :=
  ⟨⟨by decide,
    (C10_line_overcount .u8 6 (by decide) [⟨0, 1⟩, ⟨1, 2⟩, ⟨2, 3⟩]).1⟩,
    (C10_line_overcount .u8 6 (by decide) [⟨0, 1⟩, ⟨1, 2⟩, ⟨2, 3⟩]).2⟩

/-- C10, counterexample to the claim's "strictly fewer than `⌊M/2⌋`
segments" at `M = 3`: the emitted buffer holds exactly
`⌊3/2⌋ = 1` segment. -/
theorem C10_counterexample :
    ¬ (∀ b ∈ populateLines .u8 3 [⟨0, 1⟩], b.length / 2 < 3 / 2) := by
  decide

/-- C8: both subdivision paths select the element width identically,
and the selection is exactly the 256 / 65536 threshold scheme. -/
theorem C8_index_width (N : Nat) :
    triEBOWidth N = lineEBOWidth N ∧
    (triEBOWidth N = .u8 ↔ N < 256) ∧
    (triEBOWidth N = .u16 ↔ 256 ≤ N ∧ N < 65536) ∧
    (triEBOWidth N = .u32 ↔ 65536 ≤ N) := by
  unfold triEBOWidth lineEBOWidth
  split_ifs with h1 h2 <;> refine ⟨rfl, ?_, ?_, ?_⟩ <;> simp <;> omega

/-- C8, witness: the boundary vertex counts named by the spec. -/
theorem C8_index_width_witness :
    triEBOWidth 255 = .u8 ∧ triEBOWidth 256 = .u16 ∧
    triEBOWidth 65535 = .u16 ∧ triEBOWidth 65536 = .u32 :=
  ⟨(C8_index_width 255).2.1.mpr (by omega),
    (C8_index_width 256).2.2.1.mpr (by omega),
    (C8_index_width 65535).2.2.1.mpr (by omega),
    (C8_index_width 65536).2.2.2.mpr (by omega)⟩

/-- C9: `geodeticMidpoint` always averages the second (latitude)
component; the longitude is the plain average when the longitudes are
less than π apart, and otherwise the average taken after adding a full
turn to the smaller longitude. -/
theorem C9_geodetic_midpoint (pi : ℚ) (g0 g1 : ℚ × ℚ) :
    (geodeticMidpoint pi g0 g1).2 = (g0.2 + g1.2) / 2 ∧
    (|g0.1 - g1.1| < pi →
      (geodeticMidpoint pi g0 g1).1 = (g0.1 + g1.1) / 2) ∧
    (¬ |g0.1 - g1.1| < pi →
      (geodeticMidpoint pi g0 g1).1 =
        ((min g0.1 g1.1 + 2 * pi) + max g0.1 g1.1) / 2) := by
  unfold geodeticMidpoint
  split_ifs with h1 h2
  · exact ⟨by ring, fun _ => by ring, fun h => absurd h1 h⟩
  · refine ⟨by ring, fun h => absurd h h1, fun _ => ?_⟩
    have hle : g0.1 ≤ g1.1 := le_of_lt h2
    rw [min_eq_left hle, max_eq_right hle]
    ring
  · refine ⟨by ring, fun h => absurd h h1, fun _ => ?_⟩
    have hle : g1.1 ≤ g0.1 := le_of_not_lt h2
    rw [min_eq_right hle, max_eq_left hle]
    ring

/-- C9, witness: the antimeridian case in degree-scaled units
(π ↦ 180): the midpoint of longitudes −179 and 179 is 180, not 0, and
the latitude is the plain average. -/
theorem C9_geodetic_midpoint_witness :
    (geodeticMidpoint 180 (-179, 10) (179, 30)).1 = 180 ∧
    (geodeticMidpoint 180 (-179, 10) (179, 30)).2 = 20 := by
  constructor
  · have h := (C9_geodetic_midpoint 180 (-179, 10) (179, 30)).2.2
      (by norm_num)
    rw [h]; norm_num
  · have h := (C9_geodetic_midpoint 180 (-179, 10) (179, 30)).1
    rw [h]; norm_num

/-!
## Engine lemmas
-/

theorem vget_append {xs ys : List V} {i : Nat} (h : i < xs.length) :
    vget (xs ++ ys) i = vget xs i := by
  simp only [vget, List.getD_eq_getElem?_getD, List.getElem?_append_left h]

theorem vget_append_self (xs : List V) (v : V) :
    vget (xs ++ [v]) xs.length = v := by
  simp [vget, List.getD]

theorem triMaxAngle_append (P : Params V A) {xs : List V} (ys : List V)
    {t : Triangle} (h : triValid xs.length t) :
    triMaxAngle P (xs ++ ys) t = triMaxAngle P xs t := by
  obtain ⟨h0, h1, h2⟩ := h
  simp [triMaxAngle, triAngles, vget_append, h0, h1, h2]

theorem lineAngle_append (P : Params V A) {xs : List V} (ys : List V)
    {l : Line} (h : lineValid xs.length l) :
    lineAngle P (xs ++ ys) l = lineAngle P xs l := by
  obtain ⟨h0, h1⟩ := h
  simp [lineAngle, vget_append, h0, h1]

theorem mapFind_mem {κ : Type} [DecidableEq κ] {m : List (κ × Nat)}
    {k : κ} {i : Nat} (h : mapFind m k = some i) : (k, i) ∈ m := by
  induction m with
  | nil => simp [mapFind] at h
  | cons p rest ih =>
      rw [mapFind] at h
      split at h
      · rename_i heq
        cases h
        subst heq
        exact List.mem_cons_self _ _
      · exact List.mem_cons_of_mem _ (ih h)

theorem mapFind_eq_none {κ : Type} [DecidableEq κ] {m : List (κ × Nat)}
    {k : κ} (h : mapFind m k = none) : ∀ p ∈ m, p.1 ≠ k := by
  induction m with
  | nil => simp
  | cons p rest ih =>
      rw [mapFind] at h
      split at h
      · cases h
      · rename_i hne
        intro q hq
        rcases List.mem_cons.mp hq with hq | hq
        · intro hk; subst hq; exact hne hk
        · exact ih h q hq

theorem stepTri_eq_done (P : Params V A) {st : TriState V} {t : Triangle}
    {rest : List Triangle} (hq : st.tris = t :: rest)
    (hle : triMaxAngle P st.verts t ≤ P.granularity) :
    stepTri P st = ⟨st.verts, rest, st.done ++ [t], st.edges⟩ := by
  simp only [triMaxAngle, triAngles] at hle
  simp only [stepTri, hq]
  rw [if_neg (not_lt.mpr hle)]

theorem stepLine_eq_done (P : Params V A) {st : LineState V} {l : Line}
    {rest : List Line} (hq : st.lines = l :: rest)
    (hle : lineAngle P st.verts l ≤ P.granularity) :
    stepLine P st = ⟨st.verts, rest, st.done ++ [l]⟩ := by
  simp only [lineAngle] at hle
  simp only [stepLine, hq]
  rw [if_neg (not_lt.mpr hle)]

theorem stepLine_eq_split (P : Params V A) {st : LineState V} {l : Line}
    {rest : List Line} (hq : st.lines = l :: rest)
    (hgt : lineAngle P st.verts l > P.granularity) :
    stepLine P st =
      ⟨st.verts ++ [P.midW2L (P.l2w (vget st.verts l.i0)) (P.l2w (vget st.verts l.i1))],
        rest ++ [⟨l.i0, st.verts.length⟩, ⟨st.verts.length, l.i1⟩], st.done⟩ := by
  simp only [lineAngle] at hgt
  simp only [stepLine, hq]
  rw [if_pos hgt]

theorem triValid_mono {n m : Nat} {t : Triangle} (h : triValid n t)
    (hnm : n ≤ m) : triValid m t := by
  obtain ⟨h0, h1, h2⟩ := h
  exact ⟨lt_of_lt_of_le h0 hnm, lt_of_lt_of_le h1 hnm, lt_of_lt_of_le h2 hnm⟩

theorem lineValid_mono {n m : Nat} {l : Line} (h : lineValid n l)
    (hnm : n ≤ m) : lineValid m l := by
  obtain ⟨h0, h1⟩ := h
  exact ⟨lt_of_lt_of_le h0 hnm, lt_of_lt_of_le h1 hnm⟩

theorem splitStep_inv (P : Params V A) {st : TriState V} (a b : Nat)
    (mid : V) (mk1 mk2 : Nat → Triangle)
    (hq : ∀ t ∈ st.tris, triValid st.verts.length t)
    (hd : ∀ t ∈ st.done, triValid st.verts.length t)
    (hp : ∀ t ∈ st.done, triMaxAngle P st.verts t ≤ P.granularity)
    (he : ∀ e ∈ st.edges, e.2 < st.verts.length)
    (hmk : ∀ i n, st.verts.length ≤ n → i < n →
      triValid n (mk1 i) ∧ triValid n (mk2 i)) :
    TriInv P (splitStep st a b mid mk1 mk2) := by
  unfold splitStep
  rcases hf : mapFind st.edges (min a b, max a b) with _ | i
  · simp only [hf]
    refine ⟨?_, ?_, ?_, ?_⟩
    · intro t ht
      simp only [List.length_append, List.length_cons, List.length_nil] at *
      rcases List.mem_append.mp ht with ht | ht
      · exact triValid_mono (hq t ht) (by omega)
      · rcases List.mem_cons.mp ht with ht | ht
        · subst ht
          exact (hmk st.verts.length (st.verts.length + 1) (by omega) (by omega)).1
        · rcases List.mem_cons.mp ht with ht | ht
          · subst ht
            exact (hmk st.verts.length (st.verts.length + 1) (by omega) (by omega)).2
          · simp at ht
    · intro t ht
      simp only [List.length_append, List.length_cons, List.length_nil]
      exact triValid_mono (hd t ht) (by omega)
    · intro t ht
      rw [triMaxAngle_append P [mid] (hd t ht)]
      exact hp t ht
    · intro e heg
      simp only [List.length_append, List.length_cons, List.length_nil]
      rcases List.mem_append.mp heg with heg | heg
      · exact lt_of_lt_of_le (he e heg) (by omega)
      · rcases List.mem_cons.mp heg with heg | heg
        · subst heg; omega
        · simp at heg
  · simp only [hf]
    have hi : i < st.verts.length := he _ (mapFind_mem hf)
    refine ⟨?_, hd, hp, he⟩
    intro t ht
    rcases List.mem_append.mp ht with ht | ht
    · exact hq t ht
    · rcases List.mem_cons.mp ht with ht | ht
      · subst ht; exact (hmk i st.verts.length le_rfl hi).1
      · rcases List.mem_cons.mp ht with ht | ht
        · subst ht; exact (hmk i st.verts.length le_rfl hi).2
        · simp at ht

theorem stepTri_inv (P : Params V A) {st : TriState V} (h : TriInv P st) :
    TriInv P (stepTri P st) := by
  obtain ⟨hq, hd, hp, he⟩ := h
  rcases htr : st.tris with _ | ⟨t, rest⟩
  · rw [show stepTri P st = st from by simp [stepTri, htr]]
    exact ⟨hq, hd, hp, he⟩
  · have hvt : triValid st.verts.length t :=
      hq t (htr ▸ List.mem_cons_self t rest)
    have hqrest : ∀ u ∈ rest, triValid st.verts.length u :=
      fun u hu => hq u (htr ▸ List.mem_cons_of_mem t hu)
    simp only [stepTri, htr]
    split_ifs with hgt h0 h1 h2
    · exact splitStep_inv P _ _ _ _ _ hqrest hd hp he
        (fun i n hn hi =>
          ⟨⟨lt_of_lt_of_le hvt.1 hn, hi, lt_of_lt_of_le hvt.2.2 hn⟩,
            ⟨hi, lt_of_lt_of_le hvt.2.1 hn, lt_of_lt_of_le hvt.2.2 hn⟩⟩)
    · exact splitStep_inv P _ _ _ _ _ hqrest hd hp he
        (fun i n hn hi =>
          ⟨⟨lt_of_lt_of_le hvt.2.1 hn, hi, lt_of_lt_of_le hvt.1 hn⟩,
            ⟨hi, lt_of_lt_of_le hvt.2.2 hn, lt_of_lt_of_le hvt.1 hn⟩⟩)
    · exact splitStep_inv P _ _ _ _ _ hqrest hd hp he
        (fun i n hn hi =>
          ⟨⟨lt_of_lt_of_le hvt.2.2 hn, hi, lt_of_lt_of_le hvt.2.1 hn⟩,
            ⟨hi, lt_of_lt_of_le hvt.1 hn, lt_of_lt_of_le hvt.2.1 hn⟩⟩)
    · exact ⟨hqrest, hd, hp, he⟩
    · refine ⟨hqrest, ?_, ?_, he⟩
      · intro u hu
        rcases List.mem_append.mp hu with hu | hu
        · exact hd u hu
        · rcases List.mem_cons.mp hu with hu | hu
          · subst hu; exact hvt
          · simp at hu
      · intro u hu
        rcases List.mem_append.mp hu with hu | hu
        · exact hp u hu
        · rcases List.mem_cons.mp hu with hu | hu
          · subst hu; exact not_lt.mp hgt
          · simp at hu

theorem runTri_inv (P : Params V A) :
    ∀ (fuel : Nat) (st st' : TriState V), TriInv P st →
      runTri P fuel st = some st' → TriInv P st' := by
  intro fuel
  induction fuel with
  | zero =>
      intro st st' h hr
      rw [runTri] at hr
      split at hr
      · cases hr; exact h
      · cases hr
  | succ f ih =>
      intro st st' h hr
      rw [runTri] at hr
      split at hr
      · cases hr; exact h
      · exact ih _ _ (stepTri_inv P h) hr

theorem stepLine_inv (P : Params V A) {st : LineState V}
    (h : LineInv P st) : LineInv P (stepLine P st) := by
  obtain ⟨hq, hd, hp⟩ := h
  rcases hls : st.lines with _ | ⟨l, rest⟩
  · rw [show stepLine P st = st from by simp [stepLine, hls]]
    exact ⟨hq, hd, hp⟩
  · have hvl : lineValid st.verts.length l :=
      hq l (hls ▸ List.mem_cons_self l rest)
    have hqrest : ∀ u ∈ rest, lineValid st.verts.length u :=
      fun u hu => hq u (hls ▸ List.mem_cons_of_mem l hu)
    rcases le_or_lt (lineAngle P st.verts l) P.granularity with hle | hgt
    · rw [stepLine_eq_done P hls hle]
      refine ⟨hqrest, ?_, ?_⟩
      · intro u hu
        rcases List.mem_append.mp hu with hu | hu
        · exact hd u hu
        · rcases List.mem_cons.mp hu with hu | hu
          · subst hu; exact hvl
          · simp at hu
      · intro u hu
        rcases List.mem_append.mp hu with hu | hu
        · exact hp u hu
        · rcases List.mem_cons.mp hu with hu | hu
          · subst hu; exact hle
          · simp at hu
    · rw [stepLine_eq_split P hls hgt]
      refine ⟨?_, ?_, ?_⟩
      · intro u hu
        simp only [List.length_append, List.length_cons, List.length_nil]
        rcases List.mem_append.mp hu with hu | hu
        · exact lineValid_mono (hqrest u hu) (by omega)
        · rcases List.mem_cons.mp hu with hu | hu
          · subst hu
            exact ⟨Nat.lt_succ_of_lt hvl.1, Nat.lt_succ_self _⟩
          · rcases List.mem_cons.mp hu with hu | hu
            · subst hu
              exact ⟨Nat.lt_succ_self _, Nat.lt_succ_of_lt hvl.2⟩
            · simp at hu
      · intro u hu
        simp only [List.length_append, List.length_cons, List.length_nil]
        exact lineValid_mono (hd u hu) (by omega)
      · intro u hu
        rw [lineAngle_append P _ (hd u hu)]
        exact hp u hu
  
theorem runLine_inv (P : Params V A) :
    ∀ (fuel : Nat) (st st' : LineState V), LineInv P st →
      runLine P fuel st = some st' → LineInv P st' := by
  intro fuel
  induction fuel with
  | zero =>
      intro st st' h hr
      rw [runLine] at hr
      split at hr
      · cases hr; exact h
      · cases hr
  | succ f ih =>
      intro st st' h hr
      rw [runLine] at hr
      split at hr
      · cases hr; exact h
      · exact ih _ _ (stepLine_inv P h) hr

theorem triPos_append {xs ys : List V} {t : Triangle}
    (h : triValid xs.length t) : triPos (xs ++ ys) t = triPos xs t := by
  obtain ⟨h0, h1, h2⟩ := h
  simp [triPos, vget_append, h0, h1, h2]

theorem linePos_append {xs ys : List V} {l : Line}
    (h : lineValid xs.length l) : linePos (xs ++ ys) l = linePos xs l := by
  obtain ⟨h0, h1⟩ := h
  simp [linePos, vget_append, h0, h1]

theorem record_spec (d : TriangleData V) (v : V) (h : CollTriInv d) :
    ∃ ys, (d.record v).1.verts = d.verts ++ ys ∧
      (d.record v).1.tris = d.tris ∧
      CollTriInv (d.record v).1 ∧
      (d.record v).2 < (d.record v).1.verts.length ∧
      vget (d.record v).1.verts (d.record v).2 = v := by
  obtain ⟨hm, ht⟩ := h
  unfold TriangleData.record
  rcases hf : mapFind d.vertMap v with _ | i
  · simp only [hf]
    refine ⟨[v], by trivial, by trivial, ⟨?_, ?_⟩, ?_, ?_⟩
    · intro p hp
      rcases List.mem_append.mp hp with hp | hp
      · obtain ⟨h1, h2⟩ := hm p hp
        refine ⟨by simp; omega, ?_⟩
        rw [vget_append h1]
        exact h2
      · rcases List.mem_cons.mp hp with hp | hp
        · subst hp
          exact ⟨by simp, vget_append_self _ _⟩
        · simp at hp
    · intro u hu
      exact triValid_mono (ht u hu) (by simp)
    · simp
    · exact vget_append_self _ _
  · simp only [hf]
    obtain ⟨h1, h2⟩ := hm _ (mapFind_mem hf)
    exact ⟨[], by simp, by trivial, ⟨hm, ht⟩, h1, h2⟩

theorem record_spec2 (d : TriangleData V) (v : V) (h : CollTriInv d)
    (d' : TriangleData V) (i : Nat) (hrec : d.record v = (d', i)) :
    ∃ ys, d'.verts = d.verts ++ ys ∧ d'.tris = d.tris ∧ CollTriInv d' ∧
      i < d'.verts.length ∧ vget d'.verts i = v := by
  have h2 := record_spec d v h
  rw [hrec] at h2
  exact h2

theorem recordL_spec (d : LineData V) (v : V) (h : CollLineInv d)
    (d' : LineData V) (i : Nat) (hrec : d.record v = (d', i)) :
    ∃ ys, d'.verts = d.verts ++ ys ∧ d'.lines = d.lines ∧ CollLineInv d' ∧
      i < d'.verts.length ∧ vget d'.verts i = v := by
  obtain ⟨hm, hl⟩ := h
  unfold LineData.record at hrec
  rcases hf : mapFind d.vertMap v with _ | j
  · rw [hf] at hrec
    simp only at hrec
    cases hrec
    refine ⟨[v], rfl, rfl, ⟨?_, ?_⟩, ?_, ?_⟩
    · intro p hp
      rcases List.mem_append.mp hp with hp | hp
      · obtain ⟨h1, h2⟩ := hm p hp
        refine ⟨by simp; omega, ?_⟩
        rw [vget_append h1]
        exact h2
      · rcases List.mem_cons.mp hp with hp | hp
        · subst hp
          exact ⟨by simp, vget_append_self _ _⟩
        · simp at hp
    · intro u hu
      exact lineValid_mono (hl u hu) (by simp)
    · simp
    · exact vget_append_self _ _
  · rw [hf] at hrec
    simp only at hrec
    cases hrec
    obtain ⟨h1, h2⟩ := hm _ (mapFind_mem hf)
    exact ⟨[], by simp, rfl, ⟨hm, hl⟩, h1, h2⟩

theorem push_spec (d : TriangleData V) (p : V × V × V) (h : CollTriInv d) :
    ∃ ys, (d.push p).verts = d.verts ++ ys ∧
      CollTriInv (d.push p) ∧
      (d.push p).tris.map (triPos (d.push p).verts) =
        d.tris.map (triPos d.verts) ++ [p] := by
  rcases h0 : d.record p.1 with ⟨d0, a⟩
  rcases h1 : d0.record p.2.1 with ⟨d1, b⟩
  rcases h2 : d1.record p.2.2 with ⟨d2, c⟩
  obtain ⟨ys0, hv0, ht0, hinv0, hia, hva⟩ := record_spec2 d p.1 h d0 a h0
  obtain ⟨ys1, hv1, ht1, hinv1, hib, hvb⟩ := record_spec2 d0 p.2.1 hinv0 d1 b h1
  obtain ⟨ys2, hv2, ht2, hinv2, hic, hvc⟩ := record_spec2 d1 p.2.2 hinv1 d2 c h2
  have hpush : d.push p = { d2 with tris := d2.tris ++ [⟨a, b, c⟩] } := by
    simp only [TriangleData.push, h0, h1, h2]
  have hverts : d2.verts = d.verts ++ (ys0 ++ (ys1 ++ ys2)) := by
    rw [hv2, hv1, hv0, List.append_assoc, List.append_assoc]
  have hverts1 : d2.verts = d0.verts ++ (ys1 ++ ys2) := by
    rw [hv2, hv1, List.append_assoc]
  have hverts2 : d2.verts = d1.verts ++ ys2 := hv2
  have hva2 : vget d2.verts a = p.1 := by
    rw [hverts1, vget_append hia]
    exact hva
  have hvb2 : vget d2.verts b = p.2.1 := by
    rw [hverts2, vget_append hib]
    exact hvb
  have hlen0 : d0.verts.length ≤ d2.verts.length := by
    rw [hverts1]; simp
  have hlen1 : d1.verts.length ≤ d2.verts.length := by
    rw [hverts2]; simp
  rw [hpush]
  refine ⟨ys0 ++ (ys1 ++ ys2), hverts, ?_, ?_⟩
  · obtain ⟨hm2, ht2v⟩ := hinv2
    refine ⟨hm2, ?_⟩
    intro t ht
    rcases List.mem_append.mp ht with ht | ht
    · exact ht2v t ht
    · rcases List.mem_cons.mp ht with ht | ht
      · subst ht
        exact ⟨lt_of_lt_of_le hia hlen0, lt_of_lt_of_le hib hlen1, hic⟩
      · simp at ht
  · rw [ht2, ht1, ht0, List.map_append]
    congr 1
    · refine List.map_congr_left ?_
      intro t ht
      rw [hverts, triPos_append (h.2 t ht)]
    · simp [triPos, hva2, hvb2, hvc]

theorem pushL_spec (d : LineData V) (p : V × V) (h : CollLineInv d) :
    ∃ ys, (d.push p).verts = d.verts ++ ys ∧
      CollLineInv (d.push p) ∧
      (d.push p).lines.map (linePos (d.push p).verts) =
        d.lines.map (linePos d.verts) ++ [p] := by
  rcases h0 : d.record p.1 with ⟨d0, a⟩
  rcases h1 : d0.record p.2 with ⟨d1, b⟩
  obtain ⟨ys0, hv0, ht0, hinv0, hia, hva⟩ := recordL_spec d p.1 h d0 a h0
  obtain ⟨ys1, hv1, ht1, hinv1, hib, hvb⟩ := recordL_spec d0 p.2 hinv0 d1 b h1
  have hpush : d.push p = { d1 with lines := d1.lines ++ [⟨a, b⟩] } := by
    simp only [LineData.push, h0, h1]
  have hverts : d1.verts = d.verts ++ (ys0 ++ ys1) := by
    rw [hv1, hv0, List.append_assoc]
  have hverts1 : d1.verts = d0.verts ++ ys1 := hv1
  have hva1 : vget d1.verts a = p.1 := by
    rw [hverts1, vget_append hia]
    exact hva
  have hlen0 : d0.verts.length ≤ d1.verts.length := by
    rw [hverts1]; simp
  rw [hpush]
  refine ⟨ys0 ++ ys1, hverts, ?_, ?_⟩
  · obtain ⟨hm1, hl1⟩ := hinv1
    refine ⟨hm1, ?_⟩
    intro l hl
    rcases List.mem_append.mp hl with hl | hl
    · exact hl1 l hl
    · rcases List.mem_cons.mp hl with hl | hl
      · subst hl
        exact ⟨lt_of_lt_of_le hia hlen0, hib⟩
      · simp at hl
  · rw [ht1, ht0, List.map_append]
    congr 1
    · refine List.map_congr_left ?_
      intro l hl
      rw [hverts, linePos_append (h.2 l hl)]
    · simp [linePos, hva1, hvb]

theorem collect_go_spec (soup : List (V × V × V)) :
    ∀ d : TriangleData V, CollTriInv d →
      CollTriInv (soup.foldl TriangleData.push d) ∧
      (soup.foldl TriangleData.push d).tris.map
          (triPos (soup.foldl TriangleData.push d).verts) =
        d.tris.map (triPos d.verts) ++ soup := by
  induction soup with
  | nil =>
      intro d h
      exact ⟨h, by simp⟩
  | cons p rest ih =>
      intro d h
      obtain ⟨ys, hv, hinv, hmap⟩ := push_spec d p h
      obtain ⟨hinv', hmap'⟩ := ih (d.push p) hinv
      refine ⟨by simpa using hinv', ?_⟩
      simp only [List.foldl_cons]
      rw [hmap', hmap]
      simp

theorem collectL_go_spec (soup : List (V × V)) :
    ∀ d : LineData V, CollLineInv d →
      CollLineInv (soup.foldl LineData.push d) ∧
      (soup.foldl LineData.push d).lines.map
          (linePos (soup.foldl LineData.push d).verts) =
        d.lines.map (linePos d.verts) ++ soup := by
  induction soup with
  | nil =>
      intro d h
      exact ⟨h, by simp⟩
  | cons p rest ih =>
      intro d h
      obtain ⟨ys, hv, hinv, hmap⟩ := pushL_spec d p h
      obtain ⟨hinv', hmap'⟩ := ih (d.push p) hinv
      refine ⟨by simpa using hinv', ?_⟩
      simp only [List.foldl_cons]
      rw [hmap', hmap]
      simp

theorem collectTris_spec (soup : List (V × V × V)) :
    CollTriInv (collectTris soup) ∧
    (collectTris soup).tris.map (triPos (collectTris soup).verts) = soup := by
  have h := collect_go_spec soup ⟨[], [], []⟩ ⟨by simp, by simp⟩
  simpa [collectTris] using h

theorem collectLines_spec (soup : List (V × V)) :
    CollLineInv (collectLines soup) ∧
    (collectLines soup).lines.map (linePos (collectLines soup).verts) = soup := by
  have h := collectL_go_spec soup ⟨[], [], []⟩ ⟨by simp, by simp⟩
  simpa [collectLines] using h

theorem runTri_unfold (P : Params V A) (fuel : Nat) (st : TriState V) :
    runTri P fuel st =
      if st.tris = [] then some st
      else
        match fuel with
        | 0 => none
        | fuel' + 1 => runTri P fuel' (stepTri P st) := by
  rw [runTri.eq_def]

theorem runLine_unfold (P : Params V A) (fuel : Nat) (st : LineState V) :
    runLine P fuel st =
      if st.lines = [] then some st
      else
        match fuel with
        | 0 => none
        | fuel' + 1 => runLine P fuel' (stepLine P st) := by
  rw [runLine.eq_def]

theorem runTri_allPass (P : Params V A) :
    ∀ (q : List Triangle) (st : TriState V), st.tris = q →
      (∀ t ∈ q, triMaxAngle P st.verts t ≤ P.granularity) →
      runTri P q.length st = some ⟨st.verts, [], st.done ++ q, st.edges⟩ := by
  intro q
  induction q with
  | nil =>
      intro st hq hpass
      rw [runTri_unfold, if_pos hq]
      cases st
      simp only at hq
      subst hq
      simp
  | cons t q' ih =>
      intro st hq hpass
      rw [runTri_unfold, if_neg (by rw [hq]; simp)]
      simp only [List.length_cons]
      rw [stepTri_eq_done P hq (hpass t (List.mem_cons_self t q'))]
      have h2 := ih ⟨st.verts, q', st.done ++ [t], st.edges⟩ rfl
        (fun u hu => hpass u (List.mem_cons_of_mem t hu))
      simpa [List.append_assoc] using h2

theorem runLine_allPass (P : Params V A) :
    ∀ (q : List Line) (st : LineState V), st.lines = q →
      (∀ l ∈ q, lineAngle P st.verts l ≤ P.granularity) →
      runLine P q.length st = some ⟨st.verts, [], st.done ++ q⟩ := by
  intro q
  induction q with
  | nil =>
      intro st hq hpass
      rw [runLine_unfold, if_pos hq]
      cases st
      simp only at hq
      subst hq
      simp
  | cons l q' ih =>
      intro st hq hpass
      rw [runLine_unfold, if_neg (by rw [hq]; simp)]
      simp only [List.length_cons]
      rw [stepLine_eq_done P hq (hpass l (List.mem_cons_self l q'))]
      have h2 := ih ⟨st.verts, q', st.done ++ [l]⟩ rfl
        (fun u hu => hpass u (List.mem_cons_of_mem l hu))
      simpa [List.append_assoc] using h2

/-- C1: a primitive reaches the done list only if it passes the
granularity test — for a triangle, the maximum of its three
world-space edge angles is at most the granularity; for a line segment,
its world-space angle is.  Stated for any terminating run seeded from
the collector. -/
theorem C1_angle_bound (P : Params V A) (triSoup : List (V × V × V))
    (lineSoup : List (V × V)) (fuel : Nat) (stT : TriState V)
    (stL : LineState V) :
    (runTri P fuel (initTri (collectTris triSoup)) = some stT →
      ∀ t ∈ stT.done, triMaxAngle P stT.verts t ≤ P.granularity) ∧
    (runLine P fuel (initLine (collectLines lineSoup)) = some stL →
      ∀ l ∈ stL.done, lineAngle P stL.verts l ≤ P.granularity) := by
  constructor
  · intro hr
    have hcoll := (collectTris_spec (V := V) triSoup).1
    have hinv0 : TriInv P (initTri (collectTris triSoup)) :=
      ⟨hcoll.2, by simp [initTri], by simp [initTri], by simp [initTri]⟩
    exact (runTri_inv P fuel _ _ hinv0 hr).2.2.1
  · intro hr
    have hcoll := (collectLines_spec (V := V) lineSoup).1
    have hinv0 : LineInv P (initLine (collectLines lineSoup)) :=
      ⟨hcoll.2, by simp [initLine], by simp [initLine]⟩
    exact (runLine_inv P fuel _ _ hinv0 hr).2.2

/-- C1, witness: a terminating triangle run (one split) and line run
(three splits) on the integer-line demo instance; each finalized
primitive passes the granularity test. -/
theorem C1_angle_bound_witness :
    triMaxAngle (demoParams 2) [0, 4, 2, 2] ⟨0, 3, 2⟩ ≤ 2 ∧
    triMaxAngle (demoParams 2) [0, 4, 2, 2] ⟨3, 1, 2⟩ ≤ 2 ∧
    lineAngle (demoParams 1) [0, 4, 2, 1, 3] ⟨0, 3⟩ ≤ 1 := by
  have hT := (C1_angle_bound (demoParams 2) [((0 : Int), (4 : Int), (2 : Int))]
      [((0 : Int), (4 : Int))] 20
      ⟨[0, 4, 2, 2], [], [⟨0, 3, 2⟩, ⟨3, 1, 2⟩], [((0, 1), 3)]⟩
      ⟨[], [], []⟩).1 (by decide)
  have hL := (C1_angle_bound (demoParams 1) [((0 : Int), (4 : Int), (2 : Int))]
      [((0 : Int), (4 : Int))] 20
      ⟨[], [], [], []⟩
      ⟨[0, 4, 2, 1, 3], [], [⟨0, 3⟩, ⟨3, 2⟩, ⟨2, 4⟩, ⟨4, 1⟩]⟩).2 (by decide)
  exact ⟨hT ⟨0, 3, 2⟩ (by decide), hT ⟨3, 1, 2⟩ (by decide),
    hL ⟨0, 3⟩ (by decide)⟩

/-- C7: subdivision is idempotent.  Feeding a terminating run's output
(the finalized primitives, read back as position tuples, exactly what
the functor decomposition of the replaced geometry yields) into a fresh
run with the same parameters performs no split: the loop finishes in
exactly one dequeue per primitive, finalizing all of them in order, with
no vertex appended and the edge cache never written, and the finalized
primitives denote the same position tuples as the first run's output. -/
theorem C7_idempotent (P : Params V A) (triSoup : List (V × V × V))
    (lineSoup : List (V × V)) (fuel : Nat) (stT : TriState V)
    (stL : LineState V) :
    (runTri P fuel (initTri (collectTris triSoup)) = some stT →
      runTri P (collectTris (stT.done.map (triPos stT.verts))).tris.length
          (initTri (collectTris (stT.done.map (triPos stT.verts)))) =
        some ⟨(collectTris (stT.done.map (triPos stT.verts))).verts, [],
          (collectTris (stT.done.map (triPos stT.verts))).tris, []⟩ ∧
      (collectTris (stT.done.map (triPos stT.verts))).tris.map
          (triPos (collectTris (stT.done.map (triPos stT.verts))).verts) =
        stT.done.map (triPos stT.verts)) ∧
    (runLine P fuel (initLine (collectLines lineSoup)) = some stL →
      runLine P (collectLines (stL.done.map (linePos stL.verts))).lines.length
          (initLine (collectLines (stL.done.map (linePos stL.verts)))) =
        some ⟨(collectLines (stL.done.map (linePos stL.verts))).verts, [],
          (collectLines (stL.done.map (linePos stL.verts))).lines⟩ ∧
      (collectLines (stL.done.map (linePos stL.verts))).lines.map
          (linePos (collectLines (stL.done.map (linePos stL.verts))).verts) =
        stL.done.map (linePos stL.verts)) := by
  constructor
  · intro hr
    have hcoll0 := (collectTris_spec (V := V) triSoup).1
    have hinv0 : TriInv P (initTri (collectTris triSoup)) :=
      ⟨hcoll0.2, by simp [initTri], by simp [initTri], by simp [initTri]⟩
    have hinv := runTri_inv P fuel _ _ hinv0 hr
    obtain ⟨hcinv, hcmap⟩ :=
      collectTris_spec (V := V) (stT.done.map (triPos stT.verts))
    have hpass2 : ∀ p ∈ stT.done.map (triPos stT.verts),
        posMaxAngle P p ≤ P.granularity := by
      intro p hp
      obtain ⟨t, ht, rfl⟩ := List.mem_map.mp hp
      exact hinv.2.2.1 t ht
    have hqpass : ∀ t ∈ (collectTris (stT.done.map (triPos stT.verts))).tris,
        triMaxAngle P (collectTris (stT.done.map (triPos stT.verts))).verts t ≤
          P.granularity := by
      intro t ht
      have hmem := List.mem_map_of_mem
        (triPos (collectTris (stT.done.map (triPos stT.verts))).verts) ht
      rw [hcmap] at hmem
      exact hpass2 _ hmem
    have h2 := runTri_allPass P
      (collectTris (stT.done.map (triPos stT.verts))).tris
      (initTri (collectTris (stT.done.map (triPos stT.verts)))) rfl hqpass
    refine ⟨?_, hcmap⟩
    simpa [initTri] using h2
  · intro hr
    have hcoll0 := (collectLines_spec (V := V) lineSoup).1
    have hinv0 : LineInv P (initLine (collectLines lineSoup)) :=
      ⟨hcoll0.2, by simp [initLine], by simp [initLine]⟩
    have hinv := runLine_inv P fuel _ _ hinv0 hr
    obtain ⟨hcinv, hcmap⟩ :=
      collectLines_spec (V := V) (stL.done.map (linePos stL.verts))
    have hpass2 : ∀ p ∈ stL.done.map (linePos stL.verts),
        posLineAngle P p ≤ P.granularity := by
      intro p hp
      obtain ⟨l, hl, rfl⟩ := List.mem_map.mp hp
      exact hinv.2.2 l hl
    have hqpass : ∀ l ∈ (collectLines (stL.done.map (linePos stL.verts))).lines,
        lineAngle P (collectLines (stL.done.map (linePos stL.verts))).verts l ≤
          P.granularity := by
      intro l hl
      have hmem := List.mem_map_of_mem
        (linePos (collectLines (stL.done.map (linePos stL.verts))).verts) hl
      rw [hcmap] at hmem
      exact hpass2 _ hmem
    have h2 := runLine_allPass P
      (collectLines (stL.done.map (linePos stL.verts))).lines
      (initLine (collectLines (stL.done.map (linePos stL.verts)))) rfl hqpass
    refine ⟨?_, hcmap⟩
    simpa [initLine] using h2

/-- C7, witness: re-running the demo triangle and line runs on their own
output (read back as position tuples) finishes with no split, no new
vertex and the same primitives. -/
theorem C7_idempotent_witness :
    (runTri (demoParams 2) 2
        (initTri (collectTris [((0 : Int), (2 : Int), (2 : Int)),
          ((2 : Int), (4 : Int), (2 : Int))])) =
      some ⟨[0, 2, 4], [], [⟨0, 1, 1⟩, ⟨1, 2, 1⟩], []⟩ ∧
      (collectTris [((0 : Int), (2 : Int), (2 : Int)),
          ((2 : Int), (4 : Int), (2 : Int))]).tris.map
        (triPos [0, 2, 4]) =
        [((0 : Int), (2 : Int), (2 : Int)), ((2 : Int), (4 : Int), (2 : Int))]) ∧
    (runLine (demoParams 1) 4
        (initLine (collectLines [((0 : Int), (1 : Int)), ((1 : Int), (2 : Int)),
          ((2 : Int), (3 : Int)), ((3 : Int), (4 : Int))])) =
      some ⟨[0, 1, 2, 3, 4], [], [⟨0, 1⟩, ⟨1, 2⟩, ⟨2, 3⟩, ⟨3, 4⟩]⟩ ∧
      (collectLines [((0 : Int), (1 : Int)), ((1 : Int), (2 : Int)),
          ((2 : Int), (3 : Int)), ((3 : Int), (4 : Int))]).lines.map
        (linePos [0, 1, 2, 3, 4]) =
        [((0 : Int), (1 : Int)), ((1 : Int), (2 : Int)),
          ((2 : Int), (3 : Int)), ((3 : Int), (4 : Int))]) := by
  have hT := (C7_idempotent (demoParams 2) [((0 : Int), (4 : Int), (2 : Int))]
      [((0 : Int), (4 : Int))] 20
      ⟨[0, 4, 2, 2], [], [⟨0, 3, 2⟩, ⟨3, 1, 2⟩], [((0, 1), 3)]⟩
      ⟨[], [], []⟩).1 (by decide)
  have hL := (C7_idempotent (demoParams 1) [((0 : Int), (4 : Int), (2 : Int))]
      [((0 : Int), (4 : Int))] 20
      ⟨[], [], [], []⟩
      ⟨[0, 4, 2, 1, 3], [], [⟨0, 3⟩, ⟨3, 2⟩, ⟨2, 4⟩, ⟨4, 1⟩]⟩).2 (by decide)
  exact ⟨hT, hL⟩

theorem stepTri_edges_cases (P : Params V A) (st : TriState V) :
    (stepTri P st).edges = st.edges ∨
    ∃ e, mapFind st.edges e = none ∧
      (stepTri P st).edges = st.edges ++ [(e, st.verts.length)] := by
  rcases htr : st.tris with _ | ⟨t, rest⟩
  · left
    rw [show stepTri P st = st from by simp [stepTri, htr]]
  · simp only [stepTri, htr]
    split_ifs with hgt h0 h1 h2
    · simp only [splitStep]
      rcases hf : mapFind st.edges (min t.i0 t.i1, max t.i0 t.i1) with _ | i
      · simp only [hf]
        right
        exact ⟨_, hf, rfl⟩
      · simp only [hf]
        left
        trivial
    · simp only [splitStep]
      rcases hf : mapFind st.edges (min t.i1 t.i2, max t.i1 t.i2) with _ | i
      · simp only [hf]
        right
        exact ⟨_, hf, rfl⟩
      · simp only [hf]
        left
        trivial
    · simp only [splitStep]
      rcases hf : mapFind st.edges (min t.i2 t.i0, max t.i2 t.i0) with _ | i
      · simp only [hf]
        right
        exact ⟨_, hf, rfl⟩
      · simp only [hf]
        left
        trivial
    · left; rfl
    · left; rfl

theorem edges_nodup_step (P : Params V A) (st : TriState V)
    (h : (st.edges.map Prod.fst).Nodup) :
    ((stepTri P st).edges.map Prod.fst).Nodup := by
  rcases stepTri_edges_cases P st with hc | ⟨e, hf, hc⟩
  · rw [hc]; exact h
  · rw [hc, List.map_append, List.nodup_append]
    refine ⟨h, by simp, ?_⟩
    intro a ha hb
    simp only [List.map_cons, List.map_nil, List.mem_singleton] at hb
    subst hb
    obtain ⟨p, hp, hfst⟩ := List.mem_map.mp ha
    exact absurd hfst (mapFind_eq_none hf p hp)

/-- C2: the shared-edge midpoint cache.  When a dequeued triangle splits
its chosen edge: on a cache miss exactly one vertex is appended, the
canonical edge key is bound to its index, and both children reference
that index; on a cache hit nothing is appended, the cache is unchanged,
and both children reference the cached index.  Moreover a whole run
never binds the same edge key twice (the key list stays duplicate-free). -/
theorem C2_edge_cache (P : Params V A) :
    (∀ (st : TriState V) (t : Triangle) (rest : List Triangle)
        (e : Nat × Nat),
      st.tris = t :: rest → chosenEdge P st.verts t = some e →
      ((mapFind st.edges e = none →
        ∃ m c1 c2, stepTri P st =
            ⟨st.verts ++ [m], rest ++ [c1, c2], st.done,
              st.edges ++ [(e, st.verts.length)]⟩ ∧
          triHas c1 st.verts.length ∧ triHas c2 st.verts.length) ∧
       (∀ k, mapFind st.edges e = some k →
        ∃ c1 c2, stepTri P st =
            ⟨st.verts, rest ++ [c1, c2], st.done, st.edges⟩ ∧
          triHas c1 k ∧ triHas c2 k))) ∧
    (∀ (fuel : Nat) (st st' : TriState V),
      (st.edges.map Prod.fst).Nodup → runTri P fuel st = some st' →
      (st'.edges.map Prod.fst).Nodup) := by
  constructor
  · intro st t rest e hq hce
    simp only [chosenEdge] at hce
    simp only [stepTri, hq]
    split_ifs at hce ⊢ with hgt h0 h1 h2
    · cases hce
      constructor
      · intro hf
        refine ⟨P.midW2L (P.l2w (vget st.verts t.i0)) (P.l2w (vget st.verts t.i1)),
          ⟨t.i0, st.verts.length, t.i2⟩, ⟨st.verts.length, t.i1, t.i2⟩, ?_, ?_, ?_⟩
        · simp only [splitStep, hf]
        · exact Or.inr (Or.inl rfl)
        · exact Or.inl rfl
      · intro k hf
        refine ⟨⟨t.i0, k, t.i2⟩, ⟨k, t.i1, t.i2⟩, ?_, ?_, ?_⟩
        · simp only [splitStep, hf]
        · exact Or.inr (Or.inl rfl)
        · exact Or.inl rfl
    · cases hce
      constructor
      · intro hf
        refine ⟨P.midW2L (P.l2w (vget st.verts t.i1)) (P.l2w (vget st.verts t.i2)),
          ⟨t.i1, st.verts.length, t.i0⟩, ⟨st.verts.length, t.i2, t.i0⟩, ?_, ?_, ?_⟩
        · simp only [splitStep, hf]
        · exact Or.inr (Or.inl rfl)
        · exact Or.inl rfl
      · intro k hf
        refine ⟨⟨t.i1, k, t.i0⟩, ⟨k, t.i2, t.i0⟩, ?_, ?_, ?_⟩
        · simp only [splitStep, hf]
        · exact Or.inr (Or.inl rfl)
        · exact Or.inl rfl
    · cases hce
      constructor
      · intro hf
        refine ⟨P.midW2L (P.l2w (vget st.verts t.i2)) (P.l2w (vget st.verts t.i0)),
          ⟨t.i2, st.verts.length, t.i1⟩, ⟨st.verts.length, t.i0, t.i1⟩, ?_, ?_, ?_⟩
        · simp only [splitStep, hf]
        · exact Or.inr (Or.inl rfl)
        · exact Or.inl rfl
      · intro k hf
        refine ⟨⟨t.i2, k, t.i1⟩, ⟨k, t.i0, t.i1⟩, ?_, ?_, ?_⟩
        · simp only [splitStep, hf]
        · exact Or.inr (Or.inl rfl)
        · exact Or.inl rfl
  · intro fuel
    induction fuel with
    | zero =>
        intro st st' h hr
        rw [runTri_unfold] at hr
        split at hr
        · cases hr; exact h
        · cases hr
    | succ f ih =>
        intro st st' h hr
        rw [runTri_unfold] at hr
        split at hr
        · cases hr; exact h
        · exact ih _ _ (edges_nodup_step P st h) hr

/-- C2, witness: on the demo instance, the first split of edge (0, 1)
appends one vertex (index 3), caches it, and both children carry
index 3; a later lookup of the same key in the resulting cache is a hit;
and a finished run's cache keys are duplicate-free. -/
theorem C2_edge_cache_witness :
    (∃ m c1 c2,
      stepTri (demoParams 2) ⟨[0, 4, 2], [⟨0, 1, 2⟩], [], []⟩ =
        ⟨[0, 4, 2] ++ [m], [] ++ [c1, c2], [],
          [] ++ [((0, 1), 3)]⟩ ∧
      triHas c1 3 ∧ triHas c2 3) ∧
    (((([((0, 1), 3)] : List ((Nat × Nat) × Nat)).map Prod.fst)).Nodup) := by
  constructor
  · exact ((C2_edge_cache (demoParams 2)).1
      ⟨[0, 4, 2], [⟨0, 1, 2⟩], [], []⟩ ⟨0, 1, 2⟩ [] (0, 1) rfl (by decide)).1
      (by decide)
  · exact (C2_edge_cache (demoParams 2)).2 20
      ⟨[0, 4, 2], [⟨0, 1, 2⟩], [], []⟩
      ⟨[0, 4, 2, 2], [], [⟨0, 3, 2⟩, ⟨3, 1, 2⟩], [((0, 1), 3)]⟩
      (by decide) (by decide)

/-- C5: the frame effect of `run`.  The geometry is returned untouched
when it has no primitive set, when the first primitive set's mode is
points, or when the (terminating) subdivision finishes with an empty
done list; in every other terminating case the result replaces both the
vertex array and the whole primitive-set list with the subdivision
output. -/
theorem C5_run_frame (P : Params V A) (geom : Geometry V)
    (lineSoup : List (V × V)) (triSoup : List (V × V × V)) (M fuel : Nat) :
    (geom.primSets = [] → run P geom lineSoup triSoup M fuel = some geom) ∧
    (∀ ps rest, geom.primSets = ps :: rest → ps.mode = Mode.points →
      run P geom lineSoup triSoup M fuel = some geom) ∧
    (∀ ps rest, geom.primSets = ps :: rest →
      (ps.mode = Mode.lines ∨ ps.mode = Mode.lineStrip ∨
        ps.mode = Mode.lineLoop) →
      ∀ st, runLine P fuel (initLine (collectLines lineSoup)) = some st →
        run P geom lineSoup triSoup M fuel =
          some (if 0 < st.done.length
            then ⟨st.verts, linePrimSets st.verts.length M st.done⟩
            else geom)) ∧
    (∀ ps rest, geom.primSets = ps :: rest → ps.mode = Mode.triangles →
      ∀ st, runTri P fuel (initTri (collectTris triSoup)) = some st →
        run P geom lineSoup triSoup M fuel =
          some (if 0 < st.done.length
            then ⟨st.verts, triPrimSets st.verts.length M st.done⟩
            else geom)) := by
  refine ⟨?_, ?_, ?_, ?_⟩
  · intro h
    simp [run, h]
  · intro ps rest hps hmode
    simp [run, hps, subdivide, hmode]
  · intro ps rest hps hmode st hrun
    have hlen : ¬ geom.primSets.length < 1 := by
      rw [hps]; simp
    rcases hmode with hmode | hmode | hmode <;>
      simp only [run, if_neg hlen, subdivide, hps, List.head?_cons, hmode,
        subdivideLines, hrun] <;>
      rcases Nat.eq_zero_or_pos st.done.length with hz | hz <;>
      simp [hz, Nat.not_lt_of_lt, if_neg, if_pos]
  · intro ps rest hps hmode st hrun
    have hlen : ¬ geom.primSets.length < 1 := by
      rw [hps]; simp
    simp only [run, if_neg hlen, subdivide, hps, List.head?_cons, hmode,
      subdivideTriangles, hrun]
    rcases Nat.eq_zero_or_pos st.done.length with hz | hz <;>
      simp [hz]

/-- C5, witness: a points-mode geometry is returned untouched, and a
line-mode geometry whose run finalizes four segments gets its vertex
array and primitive sets fully replaced by the emitted buffers. -/
theorem C5_run_frame_witness :
    run (demoParams 1) (⟨[5], [⟨Mode.points, .u8, [0]⟩]⟩ : Geometry Int)
        [] [] 10 20 =
      some ⟨[5], [⟨Mode.points, .u8, [0]⟩]⟩ ∧
    run (demoParams 1) (⟨[0, 4], [⟨Mode.lines, .u8, [0, 1]⟩]⟩ : Geometry Int)
        [((0 : Int), (4 : Int))] [] 10 20 =
      some ⟨[0, 4, 2, 1, 3],
        [⟨Mode.lines, .u8, [0, 3, 3, 2, 2, 4]⟩, ⟨Mode.lines, .u8, [4, 1]⟩]⟩ := by
  constructor
  · exact (C5_run_frame (demoParams 1)
      (⟨[5], [⟨Mode.points, .u8, [0]⟩]⟩ : Geometry Int) [] [] 10 20).2.1
      ⟨Mode.points, .u8, [0]⟩ [] rfl rfl
  · have h := (C5_run_frame (demoParams 1)
      (⟨[0, 4], [⟨Mode.lines, .u8, [0, 1]⟩]⟩ : Geometry Int)
      [((0 : Int), (4 : Int))] [] 10 20).2.2.1
      ⟨Mode.lines, .u8, [0, 1]⟩ [] rfl (Or.inl rfl)
      ⟨[0, 4, 2, 1, 3], [], [⟨0, 3⟩, ⟨3, 2⟩, ⟨2, 4⟩, ⟨4, 1⟩]⟩ (by decide)
    rw [h]
    decide

/-- C4 (amended): a dequeued line segment whose computed angle is NaN
fails the split test `g0 > granularity` (IEEE comparisons involving NaN
are false), so it is moved to the done list on its first dequeue — it is
finalized, not split indefinitely. -/
theorem C4_nan_finalized (P : ParamsF V A) (st : LineState V) (l : Line)
    (rest : List Line) (hq : st.lines = l :: rest)
    (hnan : P.angleBetween (P.l2w (vget st.verts l.i0))
      (P.l2w (vget st.verts l.i1)) = none) :
    stepLineF P st = ⟨st.verts, rest, st.done ++ [l]⟩ := by
  simp [stepLineF, hq, hnan, fgt]

/-- C4, witness: a zero-length segment (both endpoints equal, NaN
angle) is finalized by its first step. -/
theorem C4_nan_finalized_witness :
    stepLineF demoParamsF ⟨[0, 0], [⟨0, 1⟩], []⟩ =
      ⟨[0, 0], [], [⟨0, 1⟩]⟩ := by
  have h := C4_nan_finalized demoParamsF ⟨[0, 0], [⟨0, 1⟩], []⟩ ⟨0, 1⟩ []
    rfl (by decide)
  exact h

/-- C4, counterexample to the claim as stated: the segment with NaN
angle *is* moved to the done list, and the loop terminates after one
dequeue. -/
theorem C4_counterexample :
    demoParamsF.angleBetween 0 0 = none ∧
    runLineF demoParamsF 1 ⟨[0, 0], [⟨0, 1⟩], []⟩ =
      some ⟨[0, 0], [], [⟨0, 1⟩]⟩ := by decide

end MeshSub
